import Mathlib

/-!
# Verification of the Vault_ultraseguro cryptographic core

A shallow embedding of the vault's cryptographic engine and its callers:

* the codec layer (`src/lib/crypto/utils.ts`): bytes ⇄ base64 (`btoa`/`atob`
  as used by `arrayBufferToBase64` / `base64ToArrayBuffer`) and
  UTF-8 text ⇄ bytes (`TextEncoder`/`TextDecoder` as used by
  `stringToArrayBuffer` / `arrayBufferToString`);
* the key-derivation layer (`src/lib/crypto/keys.ts`);
* the encryption layer (`src/lib/crypto/encryption.ts`), including the JSON
  serialization of secret records done by `encryptSecret`/`decryptSecret`;
* the session state machine (`useCrypto` hook) and the batch-decryption
  caller (`refreshSecrets` in `src/contexts/VaultContext.tsx`);
* the password-strength scorer (`src/lib/password-generator.ts`) and the
  security analyzer (`src/lib/security-analyzer.ts`).

Modelling conventions:

* Byte buffers (`Uint8Array`/`ArrayBuffer`) are `List Nat` with explicit
  `< 256` bounds where they matter.
* JS strings are sequences of Unicode scalar values, `List Char`
  (UTF-16 surrogate-pair splitting of astral characters is not modelled;
  all concrete inputs below are ASCII).
* The platform PBKDF2 and AES-256-GCM primitives (`crypto.subtle`) are kept
  abstract as a `CryptoProvider` structure whose fields carry exactly the
  guarantees of the Web Crypto algorithms (determinism, byte-valued output,
  and authenticated-decryption inverting encryption); everything the
  repository itself implements on top of them is embedded concretely.
* Randomness (`crypto.getRandomValues`) is made explicit: each call site
  receives the freshly drawn bytes as a parameter (an entropy stream for
  repeated calls).
* Fallible operations (JS exceptions) return `Option`.
* JS `number` arithmetic in the security analyzer is modelled as exact
  rational arithmetic; `Math.round x` is `⌊x + 1/2⌋`, which is Mathlib's
  `round` on `ℚ`.
-/

set_option maxRecDepth 8192
set_option maxHeartbeats 1000000

namespace VaultUltra

/-! ## Base64 codec (`arrayBufferToBase64` / `base64ToArrayBuffer`)

`arrayBufferToBase64` builds a binary string from the bytes and calls
`btoa`; `base64ToArrayBuffer` calls `atob` and reads the code units back
into bytes.  We embed the composition directly: standard base64 encoding of
a byte list, and the forgiving-base64 decoding performed by `atob`
(strip up to two trailing `=` when the length is a multiple of four, reject
a remaining length ≡ 1 mod 4, decode 4-character groups with 2- or
3-character tails; whitespace removal is not modelled). -/

def b64Alphabet : List Char :=
  "ABCDEFGHIJKLMNOPQRSTUVWXYZabcdefghijklmnopqrstuvwxyz0123456789+/".data

/-- The base64 digit for a 6-bit value. -/
def b64Char (n : Nat) : Char := b64Alphabet.getD n 'A'

/-- The 6-bit value of a base64 digit (`none` for a character outside the
alphabet, on which `atob` throws). -/
def b64Index (c : Char) : Option Nat := b64Alphabet.findIdx? (fun d => d = c)

/-- Standard base64 of a byte list, three bytes to four digits, with `=`
padding: the `btoa` part of `arrayBufferToBase64`. -/
def b64EncodeBytes : List Nat → List Char
  | [] => []
  | [a] => [b64Char (a / 4), b64Char (a % 4 * 16), '=', '=']
  | [a, b] => [b64Char (a / 4), b64Char (a % 4 * 16 + b / 16), b64Char (b % 16 * 4), '=']
  | a :: b :: c :: rest =>
      b64Char (a / 4) :: b64Char (a % 4 * 16 + b / 16) :: b64Char (b % 16 * 4 + c / 64) ::
        b64Char (c % 64) :: b64EncodeBytes rest

/-- `arrayBufferToBase64` from `src/lib/crypto/utils.ts` (and
`uint8ArrayToBase64`, which delegates to it). -/
def arrayBufferToBase64 (bytes : List Nat) : List Char := b64EncodeBytes bytes

/-- Strip the trailing `=` padding (at most two), as forgiving-base64 does
when the input length is a multiple of four. -/
def b64StripPad (l : List Char) : List Char :=
  match l.reverse with
  | c :: c' :: r =>
      if c = '=' then (if c' = '=' then r.reverse else (c' :: r).reverse) else l
  | [c] => if c = '=' then [] else l
  | [] => l

/-- Decode a padding-free base64 digit string into bytes. -/
def b64DecodeMain : List Char → Option (List Nat)
  | [] => some []
  | [c1, c2] =>
      (b64Index c1).bind fun v1 => (b64Index c2).bind fun v2 =>
        some [v1 * 4 + v2 / 16]
  | [c1, c2, c3] =>
      (b64Index c1).bind fun v1 => (b64Index c2).bind fun v2 =>
        (b64Index c3).bind fun v3 =>
          some [v1 * 4 + v2 / 16, v2 % 16 * 16 + v3 / 4]
  | c1 :: c2 :: c3 :: c4 :: rest =>
      (b64Index c1).bind fun v1 => (b64Index c2).bind fun v2 =>
        (b64Index c3).bind fun v3 => (b64Index c4).bind fun v4 =>
          (b64DecodeMain rest).bind fun bs =>
            some ((v1 * 4 + v2 / 16) :: (v2 % 16 * 16 + v3 / 4) :: (v3 % 4 * 64 + v4) :: bs)
  | _ => none

/-- `base64ToArrayBuffer` from `src/lib/crypto/utils.ts` (and
`base64ToUint8Array`): `atob` then code units as bytes.  `none` models the
`InvalidCharacterError` that `atob` throws on malformed input. -/
def base64ToArrayBuffer (l : List Char) : Option (List Nat) :=
  if l.length % 4 = 0 then b64DecodeMain (b64StripPad l) else
    if l.length % 4 = 1 then none else b64DecodeMain l

theorem b64Index_b64Char : ∀ n : Fin 64, b64Index (b64Char n.val) = some n.val := by decide

theorem b64Char_ne_pad : ∀ n : Fin 64, b64Char n.val ≠ '=' := by decide

theorem b64EncodeBytes_length_mod4 (l : List Nat) : (b64EncodeBytes l).length % 4 = 0 := by
  induction l using b64EncodeBytes.induct with
  | case1 => rfl
  | case2 a => simp [b64EncodeBytes]
  | case3 a b => simp [b64EncodeBytes]
  | case4 a b c rest ih =>
      simp only [b64EncodeBytes, List.length_cons]
      omega

theorem b64EncodeBytes_length_ge (l : List Nat) (h : l ≠ []) :
    4 ≤ (b64EncodeBytes l).length := by
  induction l using b64EncodeBytes.induct with
  | case1 => exact absurd rfl h
  | case2 a => simp [b64EncodeBytes]
  | case3 a b => simp [b64EncodeBytes]
  | case4 a b c rest ih => simp [b64EncodeBytes]

theorem b64StripPad_append (xs ys : List Char) (h : 3 ≤ ys.length) :
    b64StripPad (xs ++ ys) = xs ++ b64StripPad ys := by
  match ys, h with
  | y1 :: y2 :: y3 :: yr, _ =>
    rcases hrev : (y1 :: y2 :: y3 :: yr).reverse with _ | ⟨c, _ | ⟨c', r⟩⟩
    · simp at hrev
    · have := congrArg List.length hrev
      simp at this
    · have hxy : (xs ++ y1 :: y2 :: y3 :: yr).reverse = c :: c' :: (r ++ xs.reverse) := by
        rw [List.reverse_append, hrev]
        simp
      rw [b64StripPad, hxy, b64StripPad, hrev]
      dsimp only
      split_ifs <;> simp [List.reverse_append]

theorem b64DecodeMain_strip_encode (l : List Nat) (h : ∀ b ∈ l, b < 256) :
    b64DecodeMain (b64StripPad (b64EncodeBytes l)) = some l := by
  induction l using b64EncodeBytes.induct with
  | case1 => rfl
  | case2 a =>
      have ha : a < 256 := h a (by simp)
      have h1 : b64Index (b64Char (a / 4)) = some (a / 4) :=
        b64Index_b64Char ⟨a / 4, by omega⟩
      have h2 : b64Index (b64Char (a % 4 * 16)) = some (a % 4 * 16) :=
        b64Index_b64Char ⟨a % 4 * 16, by omega⟩
      simp only [b64EncodeBytes, b64StripPad, List.reverse_cons, List.reverse_nil,
        List.nil_append, List.cons_append, List.append_nil, if_true]
      simp only [List.reverse_cons, List.reverse_nil, List.nil_append, List.cons_append,
        b64DecodeMain, h1, h2, Option.some_bind, Option.some.injEq, List.cons.injEq,
        and_true]
      omega
  | case3 a b =>
      have ha : a < 256 := h a (by simp)
      have hb : b < 256 := h b (by simp)
      have h1 : b64Index (b64Char (a / 4)) = some (a / 4) :=
        b64Index_b64Char ⟨a / 4, by omega⟩
      have h2 : b64Index (b64Char (a % 4 * 16 + b / 16)) = some (a % 4 * 16 + b / 16) :=
        b64Index_b64Char ⟨a % 4 * 16 + b / 16, by omega⟩
      have h3 : b64Index (b64Char (b % 16 * 4)) = some (b % 16 * 4) :=
        b64Index_b64Char ⟨b % 16 * 4, by omega⟩
      have hne : b64Char (b % 16 * 4) ≠ '=' := b64Char_ne_pad ⟨b % 16 * 4, by omega⟩
      simp only [b64EncodeBytes, b64StripPad, List.reverse_cons, List.reverse_nil,
        List.nil_append, List.cons_append, List.append_nil, if_true]
      rw [if_neg hne]
      simp only [List.reverse_cons, List.reverse_nil, List.nil_append, List.cons_append,
        b64DecodeMain, h1, h2, h3, Option.some_bind, Option.some.injEq, List.cons.injEq,
        and_true]
      omega
  | case4 a b c rest ih =>
      have ha : a < 256 := h a (by simp)
      have hb : b < 256 := h b (by simp)
      have hc : c < 256 := h c (by simp)
      have hrest : ∀ x ∈ rest, x < 256 := fun x hx => h x (by simp [hx])
      have h1 : b64Index (b64Char (a / 4)) = some (a / 4) :=
        b64Index_b64Char ⟨a / 4, by omega⟩
      have h2 : b64Index (b64Char (a % 4 * 16 + b / 16)) = some (a % 4 * 16 + b / 16) :=
        b64Index_b64Char ⟨a % 4 * 16 + b / 16, by omega⟩
      have h3 : b64Index (b64Char (b % 16 * 4 + c / 64)) = some (b % 16 * 4 + c / 64) :=
        b64Index_b64Char ⟨b % 16 * 4 + c / 64, by omega⟩
      have h4 : b64Index (b64Char (c % 64)) = some (c % 64) :=
        b64Index_b64Char ⟨c % 64, by omega⟩
      rcases eq_or_ne rest [] with hre | hre
      · subst hre
        have hne : b64Char (c % 64) ≠ '=' := b64Char_ne_pad ⟨c % 64, by omega⟩
        simp only [b64EncodeBytes, b64StripPad, List.reverse_cons, List.reverse_nil,
          List.nil_append, List.cons_append, List.append_nil]
        rw [if_neg hne]
        simp only [b64DecodeMain, h1, h2, h3, h4, Option.some_bind, Option.some.injEq,
          List.cons.injEq, and_true]
        omega
      · have hlen : 3 ≤ (b64EncodeBytes rest).length := by
          have := b64EncodeBytes_length_ge rest hre
          omega
        have hchunk : b64EncodeBytes (a :: b :: c :: rest)
            = [b64Char (a / 4), b64Char (a % 4 * 16 + b / 16), b64Char (b % 16 * 4 + c / 64),
               b64Char (c % 64)] ++ b64EncodeBytes rest := by
          simp [b64EncodeBytes]
        rw [hchunk, b64StripPad_append _ _ hlen]
        simp only [List.cons_append, List.nil_append, List.append_eq, b64DecodeMain,
          h1, h2, h3, h4, Option.some_bind, ih hrest, Option.some.injEq, List.cons.injEq,
          and_true]
        omega

/-- Decoding inverts encoding: `base64ToArrayBuffer (arrayBufferToBase64 bytes)`
recovers `bytes` whenever every entry is a byte (which `Uint8Array` contents
always are). -/
theorem base64_roundtrip (l : List Nat) (h : ∀ b ∈ l, b < 256) :
    base64ToArrayBuffer (arrayBufferToBase64 l) = some l := by
  rw [arrayBufferToBase64, base64ToArrayBuffer,
    if_pos (b64EncodeBytes_length_mod4 l)]
  exact b64DecodeMain_strip_encode l h

/-- `arrayBufferToBase64` is injective on byte lists. -/
theorem arrayBufferToBase64_inj {l1 l2 : List Nat} (h1 : ∀ b ∈ l1, b < 256)
    (h2 : ∀ b ∈ l2, b < 256) (h : arrayBufferToBase64 l1 = arrayBufferToBase64 l2) :
    l1 = l2 := by
  have e1 := base64_roundtrip l1 h1
  have e2 := base64_roundtrip l2 h2
  rw [h, e2] at e1
  exact ((Option.some.injEq _ _).mp e1).symm

/-! ## UTF-8 codec (`stringToArrayBuffer` / `arrayBufferToString`)

`stringToArrayBuffer` is `new TextEncoder().encode(str)`: UTF-8 encoding of
the string's scalar values.  `arrayBufferToString` is
`new TextDecoder().decode(buffer)`: the WHATWG UTF-8 decoder (here `none`
stands for an ill-formed input, on which `TextDecoder` would substitute
U+FFFD; only well-formed buffers occur in the proved statements). -/

/-- UTF-8 encoding of one Unicode scalar value. -/
def utf8EncodeChar (ch : Char) : List Nat :=
  if ch.toNat < 0x80 then [ch.toNat]
  else if ch.toNat < 0x800 then [0xc0 + ch.toNat / 64, 0x80 + ch.toNat % 64]
  else if ch.toNat < 0x10000 then
    [0xe0 + ch.toNat / 4096, 0x80 + ch.toNat / 64 % 64, 0x80 + ch.toNat % 64]
  else
    [0xf0 + ch.toNat / 262144, 0x80 + ch.toNat / 4096 % 64, 0x80 + ch.toNat / 64 % 64,
     0x80 + ch.toNat % 64]

/-- `stringToArrayBuffer` from `src/lib/crypto/utils.ts`. -/
def stringToArrayBuffer (s : List Char) : List Nat := s.flatMap utf8EncodeChar

/-- A UTF-8 continuation byte. -/
def contByte (b : Nat) : Bool := 0x80 ≤ b && b < 0xc0

/-- Decode one UTF-8 sequence at the head of the buffer: the scalar value and
the remaining bytes.  Non-recursive part of the WHATWG UTF-8 decoder, with
overlong-form, surrogate and out-of-range rejection through the standard
second-byte windows. -/
def utf8Step : List Nat → Option (Nat × List Nat)
  | [] => none
  | b0 :: rest =>
    if b0 < 0x80 then some (b0, rest)
    else if b0 < 0xc2 then none
    else if b0 < 0xe0 then
      match rest with
      | b1 :: rest1 =>
        if contByte b1 then some ((b0 - 0xc0) * 64 + (b1 - 0x80), rest1) else none
      | [] => none
    else if b0 < 0xf0 then
      match rest with
      | b1 :: b2 :: rest2 =>
        if (if b0 = 0xe0 then 0xa0 ≤ b1 && b1 < 0xc0
            else if b0 = 0xed then 0x80 ≤ b1 && b1 < 0xa0
            else contByte b1) && contByte b2 then
          some ((b0 - 0xe0) * 4096 + (b1 - 0x80) * 64 + (b2 - 0x80), rest2)
        else none
      | _ => none
    else if b0 < 0xf5 then
      match rest with
      | b1 :: b2 :: b3 :: rest3 =>
        if (if b0 = 0xf0 then 0x90 ≤ b1 && b1 < 0xc0
            else if b0 = 0xf4 then 0x80 ≤ b1 && b1 < 0x90
            else contByte b1) && contByte b2 && contByte b3 then
          some ((b0 - 0xf0) * 262144 + (b1 - 0x80) * 4096 + (b2 - 0x80) * 64 + (b3 - 0x80),
            rest3)
        else none
      | _ => none
    else none

theorem utf8Step_length : ∀ {l : List Nat} {v : Nat} {r : List Nat},
    utf8Step l = some (v, r) → r.length < l.length := by
  intro l v r h
  rcases l with _ | ⟨b0, rest⟩
  · simp [utf8Step] at h
  · simp only [utf8Step] at h
    repeat' split at h
    all_goals (try cases h) <;> simp_all <;> omega

/-- The WHATWG UTF-8 decoder (`none` stands for ill-formed input, where
`TextDecoder` would substitute U+FFFD). -/
def utf8Decode (l : List Nat) : Option (List Char) :=
  if _h : l = [] then some []
  else
    match hs : utf8Step l with
    | none => none
    | some (v, rest) =>
        have : rest.length < l.length := utf8Step_length hs
        (utf8Decode rest).map (fun cs => Char.ofNat v :: cs)
termination_by l.length

/-- `arrayBufferToString` from `src/lib/crypto/utils.ts`. -/
def arrayBufferToString (bytes : List Nat) : Option (List Char) := utf8Decode bytes

theorem char_toNat_valid (ch : Char) :
    ch.toNat < 0xd800 ∨ (0xdfff < ch.toNat ∧ ch.toNat < 0x110000) := by
  have h := ch.valid
  simpa only [Char.toNat] using h

theorem utf8EncodeChar_lt (ch : Char) : ∀ b ∈ utf8EncodeChar ch, b < 256 := by
  intro b hb
  have hv := char_toNat_valid ch
  simp only [utf8EncodeChar] at hb
  split_ifs at hb <;>
    simp only [List.mem_cons, List.not_mem_nil, or_false] at hb <;> omega

theorem stringToArrayBuffer_lt (s : List Char) : ∀ b ∈ stringToArrayBuffer s, b < 256 := by
  intro b hb
  simp only [stringToArrayBuffer, List.mem_flatMap] at hb
  obtain ⟨c, _, hc⟩ := hb
  exact utf8EncodeChar_lt c b hc

theorem utf8EncodeChar_ne_nil (ch : Char) : utf8EncodeChar ch ≠ [] := by
  simp only [utf8EncodeChar]
  split_ifs <;> simp

/-- One decoding step inverts the single-character encoder. -/
theorem utf8Step_encodeChar (ch : Char) (rest : List Nat) :
    utf8Step (utf8EncodeChar ch ++ rest) = some (ch.toNat, rest) := by
  have hv := char_toNat_valid ch
  by_cases h1 : ch.toNat < 0x80
  · rw [utf8EncodeChar, if_pos h1, List.singleton_append]
    simp only [utf8Step]
    rw [if_pos h1]
  · by_cases h2 : ch.toNat < 0x800
    · rw [utf8EncodeChar, if_neg h1, if_pos h2, List.cons_append, List.cons_append,
        List.nil_append]
      simp only [utf8Step]
      have ha0 : ¬ (0xc0 + ch.toNat / 64 < 0x80) := by omega
      have ha1 : ¬ (0xc0 + ch.toNat / 64 < 0xc2) := by omega
      have ha2 : 0xc0 + ch.toNat / 64 < 0xe0 := by omega
      rw [if_neg ha0, if_neg ha1, if_pos ha2]
      have hcont : contByte (0x80 + ch.toNat % 64) = true := by
        simp only [contByte, Bool.and_eq_true, decide_eq_true_eq]
        omega
      rw [if_pos hcont]
      congr 1
      congr 1
      omega
    · by_cases h3 : ch.toNat < 0x10000
      · rw [utf8EncodeChar, if_neg h1, if_neg h2, if_pos h3, List.cons_append,
          List.cons_append, List.cons_append, List.nil_append]
        simp only [utf8Step]
        have ha0 : ¬ (0xe0 + ch.toNat / 4096 < 0x80) := by omega
        have ha1 : ¬ (0xe0 + ch.toNat / 4096 < 0xc2) := by omega
        have ha2 : ¬ (0xe0 + ch.toNat / 4096 < 0xe0) := by omega
        have ha3 : 0xe0 + ch.toNat / 4096 < 0xf0 := by omega
        rw [if_neg ha0, if_neg ha1, if_neg ha2, if_pos ha3]
        have hguard : ((if 0xe0 + ch.toNat / 4096 = 0xe0 then
              0xa0 ≤ 0x80 + ch.toNat / 64 % 64 && 0x80 + ch.toNat / 64 % 64 < 0xc0
            else if 0xe0 + ch.toNat / 4096 = 0xed then
              0x80 ≤ 0x80 + ch.toNat / 64 % 64 && 0x80 + ch.toNat / 64 % 64 < 0xa0
            else contByte (0x80 + ch.toNat / 64 % 64))
              && contByte (0x80 + ch.toNat % 64)) = true := by
          split_ifs with he hd <;>
            simp only [contByte, Bool.and_eq_true, decide_eq_true_eq] <;> omega
        rw [if_pos hguard]
        congr 1
        congr 1
        omega
      · rw [utf8EncodeChar, if_neg h1, if_neg h2, if_neg h3, List.cons_append,
          List.cons_append, List.cons_append, List.cons_append, List.nil_append]
        simp only [utf8Step]
        have ha0 : ¬ (0xf0 + ch.toNat / 262144 < 0x80) := by omega
        have ha1 : ¬ (0xf0 + ch.toNat / 262144 < 0xc2) := by omega
        have ha2 : ¬ (0xf0 + ch.toNat / 262144 < 0xe0) := by omega
        have ha3 : ¬ (0xf0 + ch.toNat / 262144 < 0xf0) := by omega
        have ha4 : 0xf0 + ch.toNat / 262144 < 0xf5 := by omega
        rw [if_neg ha0, if_neg ha1, if_neg ha2, if_neg ha3, if_pos ha4]
        have hguard : ((if 0xf0 + ch.toNat / 262144 = 0xf0 then
              0x90 ≤ 0x80 + ch.toNat / 4096 % 64 && 0x80 + ch.toNat / 4096 % 64 < 0xc0
            else if 0xf0 + ch.toNat / 262144 = 0xf4 then
              0x80 ≤ 0x80 + ch.toNat / 4096 % 64 && 0x80 + ch.toNat / 4096 % 64 < 0x90
            else contByte (0x80 + ch.toNat / 4096 % 64))
              && contByte (0x80 + ch.toNat / 64 % 64)
              && contByte (0x80 + ch.toNat % 64)) = true := by
          split_ifs with he hd <;>
            simp only [contByte, Bool.and_eq_true, decide_eq_true_eq] <;> omega
        rw [if_pos hguard]
        congr 1
        congr 1
        omega

/-- The decoder inverts the encoder one character at a time. -/
theorem utf8Decode_encodeChar (ch : Char) (rest : List Nat) :
    utf8Decode (utf8EncodeChar ch ++ rest)
      = (utf8Decode rest).map (fun cs => ch :: cs) := by
  have hne : utf8EncodeChar ch ++ rest ≠ [] := by
    simp [utf8EncodeChar_ne_nil ch]
  rw [utf8Decode, dif_neg hne]
  have hstep := utf8Step_encodeChar ch rest
  split
  · rename_i heq
    rw [hstep] at heq
    cases heq
  · rename_i v r heq
    rw [hstep] at heq
    cases heq
    rw [Char.ofNat_toNat]

/-- Decoding inverts encoding for whole strings. -/
theorem utf8_roundtrip (s : List Char) :
    arrayBufferToString (stringToArrayBuffer s) = some s := by
  induction s with
  | nil => simp [arrayBufferToString, stringToArrayBuffer, utf8Decode]
  | cons c cs ih =>
      rw [arrayBufferToString, stringToArrayBuffer] at ih ⊢
      rw [List.flatMap_cons, utf8Decode_encodeChar, ih]
      rfl

/-! ## JSON serialization of secret records
(`JSON.stringify` / `JSON.parse` as used by `encryptSecret` / `decryptSecret`
in `src/lib/crypto/encryption.ts`)

`encryptSecret` serializes the whole record with `JSON.stringify`;
`decryptSecret` parses the decrypted text with `JSON.parse` and casts the
result to the record type.  The parser below is `JSON.parse` restricted to
the sublanguage those calls exercise: flat objects with string values and
no inter-token whitespace (`JSON.stringify` emits none).  Surrogate-pair
`\uXXXX` escapes are outside the model (strings are scalar-value
sequences); `JSON.stringify` never emits them for well-formed strings. -/

/-- The plaintext record `{name, username?, password, url?, notes?}`. -/
structure PlainSecret where
  name : List Char
  username : Option (List Char)
  password : List Char
  url : Option (List Char)
  notes : Option (List Char)
deriving DecidableEq

def hexDigitChar (n : Nat) : Char := "0123456789abcdef".data.getD n '0'

/-- `JSON.stringify` escaping of one character (ECMA-262 `QuoteJSONString`). -/
def escapeChar (c : Char) : List Char :=
  if c = '"' then ['\\', '"']
  else if c = '\\' then ['\\', '\\']
  else if c.toNat = 8 then ['\\', 'b']
  else if c.toNat = 9 then ['\\', 't']
  else if c.toNat = 10 then ['\\', 'n']
  else if c.toNat = 12 then ['\\', 'f']
  else if c.toNat = 13 then ['\\', 'r']
  else if c.toNat < 32 then
    ['\\', 'u', '0', '0', hexDigitChar (c.toNat / 16), hexDigitChar (c.toNat % 16)]
  else [c]

/-- A JSON string literal. -/
def quoteJString (s : List Char) : List Char :=
  '"' :: s.flatMap escapeChar ++ ['"']

/-- One `"key":"value"` member. -/
def jsonMember (k v : List Char) : List Char := quoteJString k ++ ':' :: quoteJString v

/-- The fields `JSON.stringify` emits, in insertion order, skipping
`undefined`-valued ones. -/
def optField (k : List Char) (o : Option (List Char)) : List (List Char × List Char) :=
  match o with
  | some v => [(k, v)]
  | none => []

def presentFields (r : PlainSecret) : List (List Char × List Char) :=
  ("name".data, r.name)
    :: (optField "username".data r.username
      ++ ("password".data, r.password)
        :: (optField "url".data r.url ++ optField "notes".data r.notes))

/-- Members joined with commas. -/
def joinComma (ms : List (List Char)) : List Char :=
  match ms with
  | [] => []
  | m :: rest => m ++ rest.flatMap (fun m2 => ',' :: m2)

/-- `JSON.stringify` of a secret record. -/
def secretToJson (r : PlainSecret) : List Char :=
  '\x7b' :: joinComma ((presentFields r).map (fun p => jsonMember p.1 p.2)) ++ ['\x7d']

/-- Whether a character is a JSON hex digit. -/
def isHexDigit (c : Char) : Bool :=
  ('0' ≤ c && c ≤ '9') || ('a' ≤ c && c ≤ 'f') || ('A' ≤ c && c ≤ 'F')

/-- Value of a hex digit (0 for non-digits; guarded by `isHexDigit`). -/
def hexDigitVal (c : Char) : Nat :=
  if '0' ≤ c && c ≤ '9' then c.toNat - 48
  else if 'a' ≤ c && c ≤ 'f' then c.toNat - 87
  else if 'A' ≤ c && c ≤ 'F' then c.toNat - 55
  else 0

/-- `\uXXXX` escape handling: four hex digits denoting a scalar value
below the surrogate range (surrogates are outside the scalar-value string
model; `JSON.stringify` only emits `\u00XX` here). -/
def jstrStepU : List Char → Option (Option Char × List Char)
  | h1 :: h2 :: h3 :: h4 :: rest2 =>
    if isHexDigit h1 && isHexDigit h2 && isHexDigit h3 && isHexDigit h4 then
      if hexDigitVal h1 * 4096 + hexDigitVal h2 * 256 + hexDigitVal h3 * 16
          + hexDigitVal h4 < 0xd800 then
        some (some (Char.ofNat (hexDigitVal h1 * 4096 + hexDigitVal h2 * 256
          + hexDigitVal h3 * 16 + hexDigitVal h4)), rest2)
      else none
    else none
  | _ => none

/-- Escape-sequence handling after a backslash. -/
def jstrStepEsc (e : Char) (rest1 : List Char) : Option (Option Char × List Char) :=
  if e = '"' then some (some '"', rest1)
  else if e = '\\' then some (some '\\', rest1)
  else if e = '/' then some (some '/', rest1)
  else if e = 'b' then some (some (Char.ofNat 8), rest1)
  else if e = 'f' then some (some (Char.ofNat 12), rest1)
  else if e = 'n' then some (some (Char.ofNat 10), rest1)
  else if e = 'r' then some (some (Char.ofNat 13), rest1)
  else if e = 't' then some (some (Char.ofNat 9), rest1)
  else if e = 'u' then jstrStepU rest1
  else none

/-- One step inside a JSON string literal: `some (none, rest)` when the
closing quote is consumed, `some (some c, rest)` when one character is
read, `none` on malformed input. -/
def jstrStep : List Char → Option (Option Char × List Char)
  | [] => none
  | c :: rest =>
    if c = '"' then some (none, rest)
    else if c = '\\' then
      match rest with
      | [] => none
      | e :: rest1 => jstrStepEsc e rest1
    else if c.toNat < 32 then none
    else some (some c, rest)

theorem jstrStepU_length {l : List Char} {o : Option Char} {r : List Char}
    (h : jstrStepU l = some (o, r)) : r.length < l.length := by
  rcases l with _ | ⟨x1, _ | ⟨x2, _ | ⟨x3, _ | ⟨x4, rest2⟩⟩⟩⟩
  · cases h
  · cases h
  · cases h
  · cases h
  · simp only [jstrStepU] at h
    split_ifs at h
    cases h
    simp only [List.length_cons]
    omega

theorem jstrStepEsc_length {e : Char} {l : List Char} {o : Option Char} {r : List Char}
    (h : jstrStepEsc e l = some (o, r)) : r.length ≤ l.length := by
  simp only [jstrStepEsc] at h
  split_ifs at h
  any_goals (cases h <;> omega)
  exact Nat.le_of_lt (jstrStepU_length h)

theorem jstrStep_length : ∀ {l : List Char} {o : Option Char} {r : List Char},
    jstrStep l = some (o, r) → r.length < l.length := by
  intro l o r h
  rcases l with _ | ⟨c, rest⟩
  · cases h
  · simp only [jstrStep] at h
    by_cases hq : c = '"'
    · rw [if_pos hq] at h
      cases h
      simp only [List.length_cons]
      omega
    · rw [if_neg hq] at h
      by_cases hb : c = '\\'
      · rw [if_pos hb] at h
        rcases rest with _ | ⟨e, rest1⟩
        · cases h
        · have := jstrStepEsc_length h
          simp only [List.length_cons]
          omega
      · rw [if_neg hb] at h
        by_cases hctl : c.toNat < 32
        · rw [if_pos hctl] at h
          cases h
        · rw [if_neg hctl] at h
          cases h
          simp only [List.length_cons]
          omega

/-- Parse the body of a JSON string literal after its opening quote. -/
def parseJStringBody (l : List Char) : Option (List Char × List Char) :=
  match hs : jstrStep l with
  | none => none
  | some (none, rest) => some ([], rest)
  | some (some c, rest) =>
      have : rest.length < l.length := jstrStep_length hs
      (parseJStringBody rest).map (fun p => (c :: p.1, p.2))
termination_by l.length

theorem isHexDigit_hexDigitChar : ∀ n : Fin 16, isHexDigit (hexDigitChar n.val) = true := by
  decide

theorem hexDigitVal_hexDigitChar : ∀ n : Fin 16, hexDigitVal (hexDigitChar n.val) = n.val := by
  decide

/-- Stepping over an `\u00XX` escape produced by the escaper. -/
theorem jstrStep_u00 (v1 v2 : Nat) (hv1 : v1 < 16) (hv2 : v2 < 16) (rest : List Char) :
    jstrStep ('\\' :: 'u' :: '0' :: '0' :: hexDigitChar v1 :: hexDigitChar v2 :: rest)
      = some (some (Char.ofNat (v1 * 16 + v2)), rest) := by
  have i1 : isHexDigit (hexDigitChar v1) = true := isHexDigit_hexDigitChar ⟨v1, hv1⟩
  have i2 : isHexDigit (hexDigitChar v2) = true := isHexDigit_hexDigitChar ⟨v2, hv2⟩
  have d1 : hexDigitVal (hexDigitChar v1) = v1 := hexDigitVal_hexDigitChar ⟨v1, hv1⟩
  have d2 : hexDigitVal (hexDigitChar v2) = v2 := hexDigitVal_hexDigitChar ⟨v2, hv2⟩
  have e0 : hexDigitVal '0' = 0 := by decide
  simp [jstrStep, jstrStepEsc, jstrStepU, i1, i2, d1, d2]
  refine ⟨by decide, by rw [e0]; omega, ?_⟩
  rw [e0]
  norm_num

/-- One string-body step inverts the `JSON.stringify` escaper. -/
theorem jstrStep_escapeChar (c : Char) (rest : List Char) :
    jstrStep (escapeChar c ++ rest) = some (some c, rest) := by
  have hv := char_toNat_valid c
  have hofNat : Char.ofNat c.toNat = c := Char.ofNat_toNat c
  by_cases h1 : c = '"'
  · subst h1
    rfl
  · by_cases h2 : c = '\\'
    · subst h2
      rfl
    · rw [escapeChar, if_neg h1, if_neg h2]
      by_cases h3 : c.toNat = 8
      · rw [if_pos h3]
        have hc : Char.ofNat 8 = c := by rw [← h3, hofNat]
        simpa [jstrStep, jstrStepEsc] using hc
      · rw [if_neg h3]
        by_cases h4 : c.toNat = 9
        · rw [if_pos h4]
          have hc : Char.ofNat 9 = c := by rw [← h4, hofNat]
          simpa [jstrStep, jstrStepEsc] using hc
        · rw [if_neg h4]
          by_cases h5 : c.toNat = 10
          · rw [if_pos h5]
            have hc : Char.ofNat 10 = c := by rw [← h5, hofNat]
            simpa [jstrStep, jstrStepEsc] using hc
          · rw [if_neg h5]
            by_cases h6 : c.toNat = 12
            · rw [if_pos h6]
              have hc : Char.ofNat 12 = c := by rw [← h6, hofNat]
              simpa [jstrStep, jstrStepEsc] using hc
            · rw [if_neg h6]
              by_cases h7 : c.toNat = 13
              · rw [if_pos h7]
                have hc : Char.ofNat 13 = c := by rw [← h7, hofNat]
                simpa [jstrStep, jstrStepEsc] using hc
              · rw [if_neg h7]
                by_cases h8 : c.toNat < 32
                · rw [if_pos h8, List.cons_append, List.cons_append, List.cons_append,
                    List.cons_append, List.cons_append, List.cons_append, List.nil_append,
                    jstrStep_u00 (c.toNat / 16) (c.toNat % 16) (by omega) (by omega)]
                  rw [(by omega : c.toNat / 16 * 16 + c.toNat % 16 = c.toNat), hofNat]
                · rw [if_neg h8, List.singleton_append, jstrStep.eq_def]
                  simp only [if_neg h1, if_neg h2, if_neg h8]

/-- `parseJStringBody` inverts the `JSON.stringify` string escaper. -/
theorem parseJStringBody_escaped (s : List Char) (rest : List Char) :
    parseJStringBody (s.flatMap escapeChar ++ '"' :: rest) = some (s, rest) := by
  induction s with
  | nil =>
      rw [List.flatMap_nil, List.nil_append, parseJStringBody]
      have hq : jstrStep ('"' :: rest) = some (none, rest) := rfl
      split
      · rename_i heq
        rw [hq] at heq
        cases heq
      · rename_i r heq
        rw [hq] at heq
        cases heq
        rfl
      · rename_i c r heq
        rw [hq] at heq
        cases heq
  | cons c cs ih =>
      rw [List.flatMap_cons, List.append_assoc, parseJStringBody]
      have hstep := jstrStep_escapeChar c (cs.flatMap escapeChar ++ '"' :: rest)
      split
      · rename_i heq
        rw [hstep] at heq
        cases heq
      · rename_i r heq
        rw [hstep] at heq
        cases heq
      · rename_i c2 r heq
        rw [hstep] at heq
        cases heq
        rw [ih]
        rfl

theorem parseJStringBody_length : ∀ {l : List Char} {p : List Char × List Char},
    parseJStringBody l = some p → p.2.length < l.length := by
  intro l
  induction l using parseJStringBody.induct with
  | case1 l hs =>
      intro p h
      rw [parseJStringBody] at h
      split at h
      · cases h
      · rename_i rest2 heq
        rw [hs] at heq
        cases heq
      · rename_i c2 rest2 heq
        rw [hs] at heq
        cases heq
  | case2 l rest hs =>
      intro p h
      rw [parseJStringBody] at h
      split at h
      · cases h
      · rename_i rest2 heq
        rw [hs] at heq
        cases heq
        cases h
        exact jstrStep_length hs
      · rename_i c2 rest2 heq
        rw [hs] at heq
        cases heq
  | case3 l c rest hs hlen ih =>
      intro p h
      rw [parseJStringBody] at h
      split at h
      · cases h
      · rename_i rest2 heq
        rw [hs] at heq
        cases heq
      · rename_i c2 rest2 heq
        rw [hs] at heq
        cases heq
        rcases hq : parseJStringBody rest with _ | q
        · rw [hq] at h
          cases h
        · rw [hq] at h
          cases h
          have h1 := ih hq
          simp only [List.length_cons]
          omega

/-- Parse one `"key":"value"` member. -/
def parseJMember (l : List Char) : Option ((List Char × List Char) × List Char) :=
  match l with
  | '"' :: rest =>
      (parseJStringBody rest).bind fun kp =>
        match kp.2 with
        | ':' :: '"' :: rest2 =>
            (parseJStringBody rest2).bind fun vp => some ((kp.1, vp.1), vp.2)
        | _ => none
  | _ => none

theorem parseJMember_length : ∀ {l : List Char} {m : (List Char × List Char) × List Char},
    parseJMember l = some m → m.2.length < l.length := by
  intro l m h
  rcases l with _ | ⟨c, rest⟩
  · cases h
  · rcases eq_or_ne c '"' with hc | hc
    · subst hc
      simp only [parseJMember] at h
      rcases hk : parseJStringBody rest with _ | kp
      · rw [hk] at h
        cases h
      · rw [hk] at h
        simp only [Option.some_bind] at h
        have hkl := parseJStringBody_length hk
        rcases hkp : kp.2 with _ | ⟨c1, _ | ⟨c2, rest2⟩⟩ <;> rw [hkp] at h hkl
        · cases h
        · split at h
          all_goals first
            | cases h
            | (rename_i heq; cases heq)
        · split at h
          · rename_i heq
            rcases heq
            rcases hv : parseJStringBody rest2 with _ | vp
            · rw [hv] at h
              cases h
            · rw [hv] at h
              cases h
              have hvl := parseJStringBody_length hv
              simp only [List.length_cons] at hkl ⊢
              omega
          · cases h
    · rw [parseJMember.eq_def] at h
      split at h
      · rename_i heq
        cases heq
        exact absurd rfl hc
      · cases h

/-- Parse `(',' member)* '\x7d'` after the first member of an object. -/
def parseJMembersRest (l : List Char) : Option (List (List Char × List Char) × List Char) :=
  match l with
  | '\x7d' :: rest => some ([], rest)
  | ',' :: rest =>
      match hm : parseJMember rest with
      | none => none
      | some mp =>
          have : mp.2.length < rest.length + 1 := by
            have := parseJMember_length hm
            omega
          (parseJMembersRest mp.2).map (fun q => (mp.1 :: q.1, q.2))
  | _ => none
termination_by l.length

/-- Parse a JSON object `'\x7b' members '\x7d'` into its member list. -/
def parseJObject (l : List Char) : Option (List (List Char × List Char) × List Char) :=
  match l with
  | '\x7b' :: rest =>
      match rest with
      | '\x7d' :: rest2 => some ([], rest2)
      | _ =>
          match parseJMember rest with
          | none => none
          | some mp => (parseJMembersRest mp.2).map (fun q => (mp.1 :: q.1, q.2))
  | _ => none

/-- `JSON.parse` on the sublanguage `JSON.stringify` emits for secret
records: a whole-input flat object with string values. -/
def jsonParseFlatObject (l : List Char) : Option (List (List Char × List Char)) :=
  match parseJObject l with
  | some (ms, []) => some ms
  | _ => none

/-- Property read-out on a parsed JS object: later duplicate keys
overwrite earlier ones, absent keys read as `undefined` (`none`). -/
def jsObjGet (ms : List (List Char × List Char)) (k : List Char) : Option (List Char) :=
  match ms with
  | [] => none
  | kv :: tl =>
      match jsObjGet tl k with
      | some v => some v
      | none => if kv.1 = k then some kv.2 else none

/-- The TypeScript-level cast of the `JSON.parse` result to the record
type, reading the five declared fields off the object (`decryptSecret`
returns `JSON.parse(decryptedJson)` typed as the record). -/
def jsonToSecret (ms : List (List Char × List Char)) : Option PlainSecret :=
  (jsObjGet ms "name".data).bind fun n =>
    (jsObjGet ms "password".data).map fun p =>
      { name := n, username := jsObjGet ms "username".data, password := p,
        url := jsObjGet ms "url".data, notes := jsObjGet ms "notes".data }

/-- `JSON.parse` + record cast, as `decryptSecret` uses them. -/
def parseSecretJson (l : List Char) : Option PlainSecret :=
  (jsonParseFlatObject l).bind jsonToSecret

/-- Parsing inverts `jsonMember` serialization. -/
theorem parseJMember_member (k v rest : List Char) :
    parseJMember (jsonMember k v ++ rest) = some ((k, v), rest) := by
  have hshape : jsonMember k v ++ rest
      = '"' :: (k.flatMap escapeChar ++ '"'
        :: (':' :: ('"' :: (v.flatMap escapeChar ++ '"' :: rest)))) := by
    simp [jsonMember, quoteJString]
  rw [hshape]
  simp only [parseJMember, parseJStringBody_escaped, Option.some_bind]

/-- Parsing inverts comma-joined member serialization up to the closing
brace. -/
theorem parseJMembersRest_tail (kvs : List (List Char × List Char)) (rest : List Char) :
    parseJMembersRest (kvs.flatMap (fun kv => ',' :: jsonMember kv.1 kv.2) ++ '\x7d' :: rest)
      = some (kvs, rest) := by
  induction kvs with
  | nil =>
      rw [List.flatMap_nil, List.nil_append, parseJMembersRest]
  | cons kv kvs ih =>
      simp only [List.flatMap_cons, List.cons_append, List.append_assoc]
      rw [parseJMembersRest]
      split
      · rename_i hm
        rw [parseJMember_member] at hm
        cases hm
      · rename_i mp hm
        rw [parseJMember_member] at hm
        cases hm
        rw [ih]
        rfl

/-- Parsing a serialized nonempty member list surrounded by braces. -/
theorem parseJObject_members (kv : List Char × List Char)
    (kvs : List (List Char × List Char)) (rest : List Char) :
    parseJObject ('\x7b' :: (jsonMember kv.1 kv.2
        ++ (kvs.flatMap (fun p => ',' :: jsonMember p.1 p.2) ++ '\x7d' :: rest)))
      = some (kv :: kvs, rest) := by
  obtain ⟨t, hshape⟩ : ∃ t, jsonMember kv.1 kv.2
      ++ (kvs.flatMap (fun p => ',' :: jsonMember p.1 p.2) ++ '\x7d' :: rest)
        = '"' :: t := by
    simp only [jsonMember, quoteJString, List.cons_append, List.append_assoc]
    exact ⟨_, rfl⟩
  have hmem : parseJMember ('"' :: t)
      = some ((kv.1, kv.2), kvs.flatMap (fun p => ',' :: jsonMember p.1 p.2)
          ++ '\x7d' :: rest) := by
    rw [← hshape]
    exact parseJMember_member kv.1 kv.2 _
  rw [hshape]
  show (match parseJMember ('"' :: t) with
        | none => none
        | some mp => (parseJMembersRest mp.2).map (fun q => (mp.1 :: q.1, q.2)))
      = some (kv :: kvs, rest)
  rw [hmem]
  dsimp only
  rw [parseJMembersRest_tail]
  rfl

/-- Reading the five record fields back off `presentFields` restores the
record. -/
theorem jsonToSecret_presentFields (r : PlainSecret) :
    jsonToSecret (presentFields r) = some r := by
  rcases r with ⟨n, u, p, w, o⟩
  rcases u with _ | u <;> rcases w with _ | w <;> rcases o with _ | o <;>
    simp [jsonToSecret, presentFields, optField, jsObjGet]

/-- `JSON.parse` of `JSON.stringify` (with the record cast) restores the
record field-for-field. -/
theorem parseSecretJson_stringify (r : PlainSecret) :
    parseSecretJson (secretToJson r) = some r := by
  have h1 : secretToJson r
      = '\x7b' :: (jsonMember "name".data r.name
        ++ ((optField "username".data r.username
            ++ ("password".data, r.password)
              :: (optField "url".data r.url ++ optField "notes".data r.notes)).flatMap
                (fun p => ',' :: jsonMember p.1 p.2) ++ '\x7d' :: [])) := by
    simp [secretToJson, presentFields, joinComma, List.flatMap_map, List.append_assoc]
  have h2 := parseJObject_members ("name".data, r.name)
    (optField "username".data r.username
      ++ ("password".data, r.password)
        :: (optField "url".data r.url ++ optField "notes".data r.notes)) []
  rw [parseSecretJson, jsonParseFlatObject, h1]
  rw [show (("name".data, r.name) : List Char × List Char).1 = "name".data from rfl,
    show (("name".data, r.name) : List Char × List Char).2 = r.name from rfl] at h2
  rw [h2]
  dsimp only
  rw [← presentFields]
  exact jsonToSecret_presentFields r

/-! ## Platform crypto primitives (`crypto.subtle`)

PBKDF2 and AES-256-GCM are Web Crypto primitives, not repository code; they
are kept abstract as a provider structure whose fields carry exactly their
interface guarantees: determinism, byte-valued output, and authenticated
decryption inverting encryption under the same key and IV.  A `CryptoKey`
handle derived by `deriveKey` (PBKDF2 → AES-GCM, 256 bits) is identified
with its key material, the PBKDF2 output bits for the password and salt —
the repository derives `deriveBits` and `deriveKey` from the same
`(password, salt)` with the same parameters. -/

structure CryptoProvider where
  /-- `crypto.subtle.deriveBits` (PBKDF2, SHA-256, 100000 iterations,
  256 bits): deterministic bytes from password and salt. -/
  pbkdf2Bits : List Char → List Nat → List Nat
  pbkdf2Bits_lt : ∀ pw salt, ∀ b ∈ pbkdf2Bits pw salt, b < 256
  /-- AES-256-GCM encryption: key bytes → IV bytes → plaintext → ciphertext
  (including the authentication tag). -/
  gcmEncrypt : List Nat → List Nat → List Nat → List Nat
  gcmEncrypt_lt : ∀ k iv m, ∀ b ∈ gcmEncrypt k iv m, b < 256
  /-- AES-256-GCM decryption; `none` is the authentication failure. -/
  gcmDecrypt : List Nat → List Nat → List Nat → Option (List Nat)
  /-- Authenticated decryption inverts encryption. -/
  gcmDecrypt_encrypt : ∀ k iv m, (∀ b ∈ m, b < 256) →
    gcmDecrypt k iv (gcmEncrypt k iv m) = some m

/-! ## Key derivation (`src/lib/crypto/keys.ts`) -/

/-- `deriveMasterKey`: the non-exportable `CryptoKey`, identified with its
PBKDF2-derived key material. -/
def deriveMasterKey (P : CryptoProvider) (masterPassword : List Char)
    (salt : List Nat) : List Nat :=
  P.pbkdf2Bits masterPassword salt

/-- `hashPassword`: base64 of the PBKDF2-derived bits. -/
def hashPassword (P : CryptoProvider) (password : List Char) (salt : List Nat) : List Char :=
  arrayBufferToBase64 (P.pbkdf2Bits password salt)

/-- `initializeMasterPassword`; the fresh random salt drawn from
`generateSalt()` is the explicit `saltEntropy` argument. -/
def initializeMasterPassword (P : CryptoProvider) (masterPassword : List Char)
    (saltEntropy : List Nat) : List Nat × List Char × List Char :=
  (deriveMasterKey P masterPassword saltEntropy,
    hashPassword P masterPassword saltEntropy,
    arrayBufferToBase64 saltEntropy)

/-- `unlockVault`: re-derive the key from the stored base64 salt; `none`
models the `atob` exception on a malformed salt. -/
def unlockVault (P : CryptoProvider) (masterPassword : List Char)
    (storedSalt : List Char) : Option (List Nat) :=
  (base64ToArrayBuffer storedSalt).map (deriveMasterKey P masterPassword)

/-- JS `===` on strings as an engine computes it: early-exit
character-by-character comparison.  `.2` is the boolean result; `.1` counts
the character comparisons performed before returning — the model of the
comparison's data-dependent running time. -/
def strEqSteps : List Char → List Char → Nat × Bool
  | [], [] => (0, true)
  | [], _ :: _ => (0, false)
  | _ :: _, [] => (0, false)
  | a :: l1, b :: l2 =>
      if a = b then
        ((strEqSteps l1 l2).1 + 1, (strEqSteps l1 l2).2)
      else (1, false)

/-- The boolean value of the `===` comparison. -/
def jsStrEq (a b : List Char) : Bool := (strEqSteps a b).2

theorem jsStrEq_iff (a b : List Char) : jsStrEq a b = true ↔ a = b := by
  induction a generalizing b with
  | nil =>
      rcases b with _ | ⟨y, t⟩ <;> simp [jsStrEq, strEqSteps]
  | cons x s ih =>
      rcases b with _ | ⟨y, t⟩
      · simp [jsStrEq, strEqSteps]
      · by_cases hxy : x = y
        · subst hxy
          simpa [jsStrEq, strEqSteps] using ih t
        · simp [jsStrEq, strEqSteps, hxy]

/-- `verifyMasterPassword`: decode the stored salt, recompute the hash and
compare it to the stored hash with `===`; `none` models the `atob`
exception on a malformed salt. -/
def verifyMasterPassword (P : CryptoProvider) (masterPassword : List Char)
    (storedSalt storedHash : List Char) : Option Bool :=
  (base64ToArrayBuffer storedSalt).map
    (fun salt => jsStrEq (hashPassword P masterPassword salt) storedHash)

/-! ## Encryption engine (`src/lib/crypto/encryption.ts`) -/

structure EncryptedPayload where
  encryptedData : List Char
  iv : List Char
deriving DecidableEq

/-- `encryptData`: the fresh 12-byte IV drawn from `generateIV()` is the
explicit `iv` argument; encrypt the UTF-8 bytes and base64 both outputs. -/
def encryptData (P : CryptoProvider) (data : List Char) (key : List Nat)
    (iv : List Nat) : EncryptedPayload :=
  { encryptedData := arrayBufferToBase64 (P.gcmEncrypt key iv (stringToArrayBuffer data)),
    iv := arrayBufferToBase64 iv }

/-- `decryptData`: decode both base64 fields, decrypt, decode UTF-8.
`none` models the `DecryptionError` thrown by its catch block. -/
def decryptData (P : CryptoProvider) (encryptedData iv : List Char)
    (key : List Nat) : Option (List Char) :=
  (base64ToArrayBuffer encryptedData).bind fun ct =>
    (base64ToArrayBuffer iv).bind fun ivBytes =>
      (P.gcmDecrypt key ivBytes ct).bind fun pt =>
        arrayBufferToString pt

/-- `encryptSecret`: serialize the record with `JSON.stringify` and encrypt
the single blob. -/
def encryptSecret (P : CryptoProvider) (secret : PlainSecret) (key : List Nat)
    (iv : List Nat) : EncryptedPayload :=
  encryptData P (secretToJson secret) key iv

/-- `decryptSecret`: decrypt and `JSON.parse` the record back. -/
def decryptSecret (P : CryptoProvider) (encryptedData iv : List Char)
    (key : List Nat) : Option PlainSecret :=
  (decryptData P encryptedData iv key).bind parseSecretJson

structure EncryptedSecretRow where
  id : List Char
  encryptedData : List Char
  iv : List Char
deriving DecidableEq

/-- `encryptSecretsBatch`: encrypt each record, each call drawing its own
fresh IV (the `ivs` stream). -/
def encryptSecretsBatch (P : CryptoProvider) (secrets : List (List Char × PlainSecret))
    (key : List Nat) (ivs : Nat → List Nat) : List EncryptedSecretRow :=
  secrets.mapIdx fun i p =>
    { id := p.1,
      encryptedData := (encryptSecret P p.2 key (ivs i)).encryptedData,
      iv := (encryptSecret P p.2 key (ivs i)).iv }

/-- `decryptSecretsBatch`: `Promise.all` over per-record `decryptSecret`;
the whole batch rejects (`none`) as soon as any record rejects. -/
def decryptSecretsBatch (P : CryptoProvider) (rows : List EncryptedSecretRow)
    (key : List Nat) : Option (List (List Char × PlainSecret)) :=
  rows.mapM fun row =>
    (decryptSecret P row.encryptedData row.iv key).map (fun s => (row.id, s))

/-! ## Session state machine (`useCrypto` hook, part_004)

The session state is the held `CryptoKey` (`encryptionKey`/`keyRef`, set
and cleared together): `none` is Locked, `some key` is Unlocked. -/

/-- The `unlock` callback: verify, then derive and install the key; its
`try/catch` converts any exception into a plain `false` with the state
untouched. -/
def useCrypto_unlock (P : CryptoProvider) (s : Option (List Nat))
    (masterPassword salt authHash : List Char) : Bool × Option (List Nat) :=
  match base64ToArrayBuffer salt with
  | none => (false, s)
  | some saltBytes =>
      if jsStrEq (hashPassword P masterPassword saltBytes) authHash then
        (true, some (deriveMasterKey P masterPassword saltBytes))
      else (false, s)

inductive VaultOp where
  | lockOp : VaultOp
  | initializeVaultOp (masterPassword : List Char) (saltEntropy : List Nat) : VaultOp
  | unlockOp (masterPassword salt authHash : List Char) : VaultOp
  | encryptOp (data : PlainSecret) (ivEntropy : List Nat) : VaultOp
  | decryptOp (encryptedData iv : List Char) : VaultOp
  | encryptBatchOp (secrets : List (List Char × PlainSecret)) (ivs : Nat → List Nat) : VaultOp
  | decryptBatchOp (rows : List EncryptedSecretRow) : VaultOp

inductive VaultResult where
  | lockDone : VaultResult
  | initialized (authHash salt : List Char) : VaultResult
  | unlockResult (ok : Bool) : VaultResult
  | encrypted (p : EncryptedPayload) : VaultResult
  | decrypted (s : Option PlainSecret) : VaultResult
  | encryptedBatch (l : List EncryptedSecretRow) : VaultResult
  | decryptedBatch (l : Option (List (List Char × PlainSecret))) : VaultResult
  | vaultLockedError : VaultResult
deriving DecidableEq

/-- One `useCrypto` call: every crypto operation first checks
`keyRef.current` and throws `Vault is locked. Please unlock first.` when it
is `null`; `lock()` clears the key unconditionally; `initializeVault` and a
successful `unlock` install the (re)derived key. -/
def vaultStep (P : CryptoProvider) (s : Option (List Nat)) :
    VaultOp → Option (List Nat) × VaultResult
  | .lockOp => (none, .lockDone)
  | .initializeVaultOp pw saltEntropy =>
      (some (deriveMasterKey P pw saltEntropy),
        .initialized (hashPassword P pw saltEntropy) (arrayBufferToBase64 saltEntropy))
  | .unlockOp pw salt authHash =>
      ((useCrypto_unlock P s pw salt authHash).2,
        .unlockResult (useCrypto_unlock P s pw salt authHash).1)
  | .encryptOp data iv =>
      match s with
      | none => (none, .vaultLockedError)
      | some key => (some key, .encrypted (encryptSecret P data key iv))
  | .decryptOp ed iv =>
      match s with
      | none => (none, .vaultLockedError)
      | some key => (some key, .decrypted (decryptSecret P ed iv key))
  | .encryptBatchOp secrets ivs =>
      match s with
      | none => (none, .vaultLockedError)
      | some key => (some key, .encryptedBatch (encryptSecretsBatch P secrets key ivs))
  | .decryptBatchOp rows =>
      match s with
      | none => (none, .vaultLockedError)
      | some key => (some key, .decryptedBatch (decryptSecretsBatch P rows key))

/-- Run a sequence of session calls, collecting the results. -/
def vaultRun (P : CryptoProvider) : Option (List Nat) → List VaultOp →
    Option (List Nat) × List VaultResult
  | s, [] => (s, [])
  | s, op :: ops =>
      ((vaultRun P (vaultStep P s op).1 ops).1,
        (vaultStep P s op).2 :: (vaultRun P (vaultStep P s op).1 ops).2)

/-- The operations that need the key. -/
def isCryptoOp : VaultOp → Bool
  | .encryptOp _ _ => true
  | .decryptOp _ _ => true
  | .encryptBatchOp _ _ => true
  | .decryptBatchOp _ => true
  | _ => false

/-- Whether `unlock` would succeed on these inputs (salt decodes and the
recomputed hash matches); independent of the current state. -/
def unlockSucceeds (P : CryptoProvider) (pw salt authHash : List Char) : Bool :=
  match base64ToArrayBuffer salt with
  | none => false
  | some saltBytes => jsStrEq (hashPassword P pw saltBytes) authHash

/-- The operations that can install a key into the session. -/
def installsKey (P : CryptoProvider) : VaultOp → Bool
  | .initializeVaultOp _ _ => true
  | .unlockOp pw salt authHash => unlockSucceeds P pw salt authHash
  | _ => false

/-! ## `refreshSecrets` batch decryption (`src/contexts/VaultContext.tsx`)

The caller-side batch policy: decrypt every record, per-record `try/catch`
returning `null` for corrupted records, then filter the `null`s out.
(Metadata fields carried alongside each row are not modelled.) -/

def refreshSecretsDecrypt (P : CryptoProvider) (rows : List EncryptedSecretRow)
    (key : List Nat) : List (List Char × PlainSecret) :=
  (rows.map fun row =>
      (decryptSecret P row.encryptedData row.iv key).map (fun s => (row.id, s))).filterMap id

/-! ## Password strength (`src/lib/password-generator.ts`)

JS strings are modelled as scalar-value sequences: `password.length` is the
scalar count and `new Set(password.split(''))` the set of distinct
characters (the concrete passwords in the claims are ASCII, where this
matches UTF-16 exactly). -/

inductive PasswordStrength where
  | weak | medium | strong | veryStrong
deriving DecidableEq

/-- `/[a-z]/.test(password)` -/
def hasLowercase (p : List Char) : Bool := p.any fun c => 'a' ≤ c && c ≤ 'z'

/-- `/[A-Z]/.test(password)` -/
def hasUppercase (p : List Char) : Bool := p.any fun c => 'A' ≤ c && c ≤ 'Z'

/-- `/[0-9]/.test(password)` -/
def hasDigit (p : List Char) : Bool := p.any fun c => '0' ≤ c && c ≤ '9'

/-- The symbol character class of the scorer's regex. -/
def symbolChars : List Char := "!@#$%^&*()_+-=[]\x7b\x7d|;:,.<>?".data

def hasSymbol (p : List Char) : Bool := p.any fun c => symbolChars.contains c

/-- The scorer's numeric score: length thresholds, character-class
presence, and the unique-character-ratio bonus
`Math.floor(uniqueChars / password.length * 20)`. -/
def passwordScore (p : List Char) : Nat :=
  (if 8 ≤ p.length then 10 else 0)
    + (if 12 ≤ p.length then 10 else 0)
    + (if 16 ≤ p.length then 10 else 0)
    + (if 20 ≤ p.length then 10 else 0)
    + (if hasLowercase p then 10 else 0)
    + (if hasUppercase p then 10 else 0)
    + (if hasDigit p then 10 else 0)
    + (if hasSymbol p then 10 else 0)
    + p.dedup.length * 20 / p.length

/-- `calculatePasswordStrength` from `src/lib/password-generator.ts`. -/
def calculatePasswordStrength (password : List Char) : PasswordStrength :=
  if password = [] then .weak
  else
    if passwordScore password < 30 then .weak
    else if passwordScore password < 50 then .medium
    else if passwordScore password < 70 then .strong
    else .veryStrong

/-! ## Security analyzer (`src/lib/security-analyzer.ts`)

`updatedAt` enters the analyzer only through
`new Date(secret.updatedAt).getTime()`; it is modelled as that epoch
timestamp in milliseconds.  `Date.now()` is the explicit `now` argument.
JS `number` arithmetic in the score is modelled as exact rational
arithmetic; `Math.round x = ⌊x + 1/2⌋` is Mathlib's `round` on `ℚ`. -/

structure SecretData where
  id : List Char
  name : List Char
  password : List Char
  updatedAtMs : Int
deriving DecidableEq

inductive Severity where
  | critical | high | medium | low
deriving DecidableEq

/-- Whether the first pass counts the record as weak
(`strength === 'weak' || strength === 'medium'`). -/
def countsAsWeak (s : SecretData) : Bool :=
  match calculatePasswordStrength s.password with
  | .weak => true
  | .medium => true
  | _ => false

/-- `weakCount` accumulated by the first pass. -/
def weakCount (secrets : List SecretData) : Nat :=
  secrets.countP countsAsWeak

/-- `strongCount` accumulated by the first pass (the `else` branch). -/
def strongCount (secrets : List SecretData) : Nat :=
  secrets.countP fun s => ! countsAsWeak s

/-- `oldCount`: records older than 180 days. -/
def oldCount (now : Int) (secrets : List SecretData) : Nat :=
  secrets.countP fun s => decide (s.updatedAtMs < now - 180 * 24 * 60 * 60 * 1000)

/-- Sizes of the `passwordMap` groups (secret ids per exact password). -/
def passwordGroupSizes (secrets : List SecretData) : List Nat :=
  (secrets.map fun s => s.password).dedup.map
    fun p => secrets.countP fun s => s.password == p

/-- `reusedCount`: the second pass adds each group's size when the group
has at least two members. -/
def reusedCount (secrets : List SecretData) : Nat :=
  ((passwordGroupSizes secrets).filter fun n => 2 ≤ n).sum

/-- The weak-password issues of the second pass: severity `critical` for a
`weak` password, `high` for a `medium` one; no issue otherwise. -/
def weakPasswordIssues (secrets : List SecretData) : List (List Char × Severity) :=
  secrets.filterMap fun s =>
    match calculatePasswordStrength s.password with
    | .weak => some (s.id, .critical)
    | .medium => some (s.id, .high)
    | _ => none

/-- `calculateOverallScore` from `src/lib/security-analyzer.ts`: start at
100; subtract `weak/total*40`, `reused/total*30`, `old/total*15`; add 5
when `strong >= total * 0.8`; `Math.round`, clamp to `[0, 100]`. -/
def calculateOverallScore (total weak reused old strong : Nat) : Int :=
  let s1 : ℚ := 100 - (weak : ℚ) / (total : ℚ) * 40
  let s2 : ℚ := s1 - (reused : ℚ) / (total : ℚ) * 30
  let s3 : ℚ := s2 - (old : ℚ) / (total : ℚ) * 15
  let s4 : ℚ := if (total : ℚ) * 0.8 ≤ (strong : ℚ) then s3 + 5 else s3
  max 0 (min 100 (round s4))

structure SecurityScore where
  overall : Int
  weakPasswords : Nat
  reusedPasswords : Nat
  oldPasswords : Nat
  strongPasswords : Nat
deriving DecidableEq

/-- The `score` record `analyzeSecrets` returns (`totalSecrets` is
`secrets.length || 1`). -/
def analyzeSecretsScore (now : Int) (secrets : List SecretData) : SecurityScore :=
  { overall := calculateOverallScore
      (if secrets.length = 0 then 1 else secrets.length)
      (weakCount secrets) (reusedCount secrets) (oldCount now secrets)
      (strongCount secrets),
    weakPasswords := weakCount secrets,
    reusedPasswords := reusedCount secrets,
    oldPasswords := oldCount now secrets,
    strongPasswords := strongCount secrets }

/-! ## A concrete provider instance

Used to instantiate the abstract Web Crypto interface in closed witness
statements.  It is a stand-in satisfying the interface laws (deterministic,
byte-valued, decryption inverting encryption, decryption able to fail),
not AES: the ciphertext is the IV image followed by a `0` marker byte and
the masked plaintext. -/

theorem mapMod256_eq (l : List Nat) (h : ∀ b ∈ l, b < 256) :
    l.map (fun b => b % 256) = l := by
  induction l with
  | nil => rfl
  | cons a t ih =>
      have ha : a < 256 := h a (by simp)
      have ht : ∀ b ∈ t, b < 256 := fun b hb => h b (by simp [hb])
      simp [Nat.mod_eq_of_lt ha, ih ht]

def refProvider : CryptoProvider where
  pbkdf2Bits := fun pw salt => stringToArrayBuffer pw ++ salt.map (fun b => b % 256)
  pbkdf2Bits_lt := by
    intro pw salt b hb
    rcases List.mem_append.mp hb with h | h
    · exact stringToArrayBuffer_lt pw b h
    · obtain ⟨a, _, ha⟩ := List.mem_map.mp h
      omega
  gcmEncrypt := fun _ iv m => iv.map (fun b => b % 256) ++ 0 :: m.map (fun b => b % 256)
  gcmEncrypt_lt := by
    intro k iv m b hb
    rcases List.mem_append.mp hb with h | h
    · obtain ⟨a, _, ha⟩ := List.mem_map.mp h
      omega
    · rcases List.mem_cons.mp h with h | h
      · omega
      · obtain ⟨a, _, ha⟩ := List.mem_map.mp h
        omega
  gcmDecrypt := fun _ iv c =>
    if c.take iv.length = iv.map (fun b => b % 256) then
      match c.drop iv.length with
      | 0 :: rest => some rest
      | _ => none
    else none
  gcmDecrypt_encrypt := by
    intro k iv m hm
    have hlen : (iv.map (fun b => b % 256)).length = iv.length := List.length_map iv _
    have htake : (iv.map (fun b => b % 256) ++ 0 :: m.map (fun b => b % 256)).take iv.length
        = iv.map (fun b => b % 256) := by
      rw [← hlen]
      exact List.take_left _ _
    have hdrop : (iv.map (fun b => b % 256) ++ 0 :: m.map (fun b => b % 256)).drop iv.length
        = 0 :: m.map (fun b => b % 256) := by
      rw [← hlen]
      exact List.drop_left _ _
    simp [htake, hdrop, mapMod256_eq m hm]

/-! ## Claim theorems -/

/-- Concrete sample values for closed witness statements. -/
def sampleSecret : PlainSecret :=
  { name := "gmail".data, username := some "ana".data, password := "S3cret!".data,
    url := none, notes := some "2fa on".data }

def sampleIV : List Nat := [0, 1, 2, 3, 4, 5, 6, 7, 8, 9, 10, 11]

def sampleKey : List Nat := [7, 7]

/-- Shared roundtrip lemma: decrypting the output of `encryptSecret` with
the same key and the stored IV restores the record. -/
theorem encryptSecret_roundtrip (P : CryptoProvider) (R : PlainSecret)
    (K : List Nat) (iv : List Nat) (hiv : ∀ b ∈ iv, b < 256) :
    decryptSecret P (encryptSecret P R K iv).encryptedData
      (encryptSecret P R K iv).iv K = some R := by
  unfold encryptSecret encryptData decryptSecret decryptData
  simp only
  rw [base64_roundtrip _ (P.gcmEncrypt_lt K iv _), base64_roundtrip iv hiv]
  simp only [Option.some_bind]
  rw [P.gcmDecrypt_encrypt K iv _ (stringToArrayBuffer_lt _)]
  simp only [Option.some_bind]
  rw [utf8_roundtrip]
  simp only [Option.some_bind]
  exact parseSecretJson_stringify R

/-- C1: for every plaintext record `R` and AES-GCM key `K`, decrypting the
output of `encryptSecret` with the same key and the stored IV returns `R`
field-for-field: the codec layers (JSON.stringify / UTF-8 / base64) and the
authenticated cipher compose to the identity. -/
theorem c1_encrypt_decrypt_roundtrip (P : CryptoProvider) (R : PlainSecret)
    (K : List Nat) (iv : List Nat) (hiv : ∀ b ∈ iv, b < 256) :
    decryptSecret P (encryptSecret P R K iv).encryptedData
      (encryptSecret P R K iv).iv K = some R :=
  encryptSecret_roundtrip P R K iv hiv

/-- C1 witness: the roundtrip at a concrete record, key and IV. -/
theorem c1_encrypt_decrypt_roundtrip_witness :
    (∀ b ∈ sampleIV, b < 256) ∧
    decryptSecret refProvider (encryptSecret refProvider sampleSecret sampleKey sampleIV).encryptedData
      (encryptSecret refProvider sampleSecret sampleKey sampleIV).iv sampleKey
        = some sampleSecret :=
  ⟨by decide, c1_encrypt_decrypt_roundtrip refProvider sampleSecret sampleKey sampleIV (by decide)⟩

theorem useCrypto_unlock_fail_keeps_state (P : CryptoProvider) (s : Option (List Nat))
    (pw salt authHash : List Char) (h : unlockSucceeds P pw salt authHash = false) :
    useCrypto_unlock P s pw salt authHash = (false, s) := by
  unfold useCrypto_unlock
  unfold unlockSucceeds at h
  rcases hdec : base64ToArrayBuffer salt with _ | sb
  · rfl
  · rw [hdec] at h
    dsimp only at h ⊢
    rw [if_neg (by rw [h]; exact Bool.false_ne_true)]

theorem vaultRun_stays_locked (P : CryptoProvider) :
    ∀ ops : List VaultOp, (∀ op ∈ ops, installsKey P op = false) →
      (vaultRun P none ops).1 = none ∧
      ∀ (i : Nat) (op : VaultOp), ops[i]? = some op → isCryptoOp op = true →
        (vaultRun P none ops).2[i]? = some .vaultLockedError := by
  intro ops
  induction ops with
  | nil =>
      intro _
      refine ⟨rfl, ?_⟩
      intro i op hop
      simp at hop
  | cons op ops ih =>
      intro h
      have hop : installsKey P op = false := h op (by simp)
      have hops : ∀ o ∈ ops, installsKey P o = false := fun o ho => h o (by simp [ho])
      obtain ⟨ih1, ih2⟩ := ih hops
      have hstep1 : (vaultStep P none op).1 = none := by
        cases op with
        | lockOp => rfl
        | initializeVaultOp pw se => simp [installsKey] at hop
        | unlockOp pw salt ah =>
            have := useCrypto_unlock_fail_keeps_state P none pw salt ah
              (by simpa [installsKey] using hop)
            simp [vaultStep, this]
        | encryptOp d iv => rfl
        | decryptOp e iv => rfl
        | encryptBatchOp l ivs => rfl
        | decryptBatchOp l => rfl
      have hstep2 : isCryptoOp op = true → (vaultStep P none op).2 = .vaultLockedError := by
        cases op with
        | lockOp => intro hc; simp [isCryptoOp] at hc
        | initializeVaultOp pw se => intro hc; simp [isCryptoOp] at hc
        | unlockOp pw salt ah => intro hc; simp [isCryptoOp] at hc
        | encryptOp d iv => intro _; rfl
        | decryptOp e iv => intro _; rfl
        | encryptBatchOp l ivs => intro _; rfl
        | decryptBatchOp l => intro _; rfl
      constructor
      · show (vaultRun P (vaultStep P none op).1 ops).1 = none
        rw [hstep1]
        exact ih1
      · intro i o hio hc
        rcases i with _ | i
        · simp only [List.getElem?_cons_zero, Option.some.injEq] at hio
          subst hio
          show ((vaultStep P none op).2 :: (vaultRun P (vaultStep P none op).1 ops).2)[0]?
              = some .vaultLockedError
          simp [hstep2 hc]
        · simp only [List.getElem?_cons_succ] at hio
          show ((vaultStep P none op).2 :: (vaultRun P (vaultStep P none op).1 ops).2)[i + 1]?
              = some .vaultLockedError
          rw [List.getElem?_cons_succ, hstep1]
          exact ih2 i o hio hc

/-- C2: `lock()` clears the key unconditionally; from the locked state,
as long as no `initializeVault` and no successful `unlock` runs, the state
stays locked and every `encrypt` / `decrypt` / `encryptBatch` /
`decryptBatch` call fails with the vault-locked error.  (The session holds
at most one key by construction: its state is a single `Option`-valued
key slot.) -/
theorem c2_lock_invariant (P : CryptoProvider) (s : Option (List Nat))
    (ops : List VaultOp) (h : ∀ op ∈ ops, installsKey P op = false) :
    (vaultStep P s .lockOp).1 = none ∧
    (vaultRun P (vaultStep P s .lockOp).1 ops).1 = none ∧
    ∀ (i : Nat) (op : VaultOp), ops[i]? = some op → isCryptoOp op = true →
      (vaultRun P (vaultStep P s .lockOp).1 ops).2[i]? = some .vaultLockedError := by
  obtain ⟨h1, h2⟩ := vaultRun_stays_locked P ops h
  exact ⟨rfl, h1, h2⟩

def c2SampleOps : List VaultOp :=
  [.encryptOp sampleSecret sampleIV,
   .unlockOp "wrong".data "AA==".data "AAAA".data,
   .decryptOp "AAAA".data "AAAA".data,
   .lockOp,
   .decryptBatchOp [{ id := "1".data, encryptedData := "AAAA".data, iv := "AAAA".data }]]

/-- C2 witness: a concrete post-`lock()` run with a failing unlock attempt
in the middle; every crypto call errors and the state stays locked. -/
theorem c2_lock_invariant_witness :
    (∀ op ∈ c2SampleOps, installsKey refProvider op = false) ∧
    ((vaultStep refProvider (some sampleKey) .lockOp).1 = none ∧
      (vaultRun refProvider (vaultStep refProvider (some sampleKey) .lockOp).1 c2SampleOps).1 = none ∧
      ∀ (i : Nat) (op : VaultOp), c2SampleOps[i]? = some op → isCryptoOp op = true →
        (vaultRun refProvider (vaultStep refProvider (some sampleKey) .lockOp).1
          c2SampleOps).2[i]? = some .vaultLockedError) :=
  ⟨by decide, c2_lock_invariant refProvider (some sampleKey) c2SampleOps (by decide)⟩

/-- C3: whenever the recomputed hash differs from the stored `authHash`
(in particular for every wrong master password), and also when the stored
salt does not even decode, `unlock` returns plain `false` and leaves the
session state untouched — it is a total function into `Bool × state` and
never propagates an exception. -/
theorem c3_wrong_password_unlock (P : CryptoProvider) (s : Option (List Nat))
    (pw salt authHash : List Char)
    (h : ∀ sb, base64ToArrayBuffer salt = some sb → hashPassword P pw sb ≠ authHash) :
    useCrypto_unlock P s pw salt authHash = (false, s) := by
  apply useCrypto_unlock_fail_keeps_state
  unfold unlockSucceeds
  rcases hdec : base64ToArrayBuffer salt with _ | sb
  · rfl
  · dsimp only
    rw [← Bool.not_eq_true, jsStrEq_iff]
    exact h sb hdec

/-- C3 witness: a wrong password against a vault whose stored hash was
computed from the right one, and a malformed salt, both yield `(false, s)`
with the state unchanged. -/
theorem c3_wrong_password_unlock_witness :
    useCrypto_unlock refProvider (some sampleKey) "wrong".data
      (arrayBufferToBase64 [1, 2]) (hashPassword refProvider "right".data [1, 2])
        = (false, some sampleKey) ∧
    useCrypto_unlock refProvider none "right".data "!!".data
      (hashPassword refProvider "right".data [1, 2]) = (false, none) :=
  ⟨c3_wrong_password_unlock refProvider (some sampleKey) "wrong".data
      (arrayBufferToBase64 [1, 2]) (hashPassword refProvider "right".data [1, 2])
      (by
        intro sb hsb
        rw [show base64ToArrayBuffer (arrayBufferToBase64 [1, 2]) = some [1, 2] from by decide]
          at hsb
        cases hsb
        decide),
    c3_wrong_password_unlock refProvider none "right".data "!!".data
      (hashPassword refProvider "right".data [1, 2])
      (by
        intro sb hsb
        rw [show base64ToArrayBuffer "!!".data = none from by decide] at hsb
        cases hsb)⟩

/-- C4: the code compares the recomputed hash against the stored hash with
plain `===` — an early-exit character comparison, not a constant-time
primitive.  The comparison-step count of `===` depends on the position of
the first differing character: against the same 8-character value, a
candidate differing at position 0 is decided in 1 comparison, one
differing at position 7 takes 8 — and `verifyMasterPassword` is exactly
this comparison applied to the recomputed hash. -/
theorem c4_verify_comparison_early_exit :
    strEqSteps "AAAAAAAA".data "BAAAAAAA".data = (1, false) ∧
    strEqSteps "AAAAAAAA".data "AAAAAAAB".data = (8, false) ∧
    ∀ (P : CryptoProvider) (pw salt storedHash : List Char),
      verifyMasterPassword P pw salt storedHash
        = (base64ToArrayBuffer salt).map
            (fun sb => (strEqSteps (hashPassword P pw sb) storedHash).2) :=
  ⟨by decide, by decide, fun _ _ _ _ => rfl⟩

/-- C5: `verify(p, s, hash(p, s))` is `true`, and for any `wrongPassword`
whose derived hash differs (the PBKDF2-injectivity assumption instantiated
at these inputs), `verify` is `false`; the salt travels through its base64
storage encoding. -/
theorem c5_verify_correctness (P : CryptoProvider) (pw : List Char) (salt : List Nat)
    (hsalt : ∀ b ∈ salt, b < 256) :
    verifyMasterPassword P pw (arrayBufferToBase64 salt) (hashPassword P pw salt)
        = some true ∧
    ∀ wrongPw : List Char, hashPassword P wrongPw salt ≠ hashPassword P pw salt →
      verifyMasterPassword P wrongPw (arrayBufferToBase64 salt) (hashPassword P pw salt)
        = some false := by
  have hdec : base64ToArrayBuffer (arrayBufferToBase64 salt) = some salt :=
    base64_roundtrip salt hsalt
  constructor
  · unfold verifyMasterPassword
    rw [hdec, Option.map_some']
    rw [show jsStrEq (hashPassword P pw salt) (hashPassword P pw salt) = true from
      (jsStrEq_iff _ _).mpr rfl]
  · intro w hw
    unfold verifyMasterPassword
    rw [hdec, Option.map_some']
    rw [show jsStrEq (hashPassword P w salt) (hashPassword P pw salt) = false from by
      rw [← Bool.not_eq_true, jsStrEq_iff]
      exact hw]

/-- C5 witness: correct and wrong password at a concrete salt. -/
theorem c5_verify_correctness_witness :
    (∀ b ∈ [1, 2], b < 256) ∧
    hashPassword refProvider "b".data [1, 2] ≠ hashPassword refProvider "a".data [1, 2] ∧
    verifyMasterPassword refProvider "a".data (arrayBufferToBase64 [1, 2])
      (hashPassword refProvider "a".data [1, 2]) = some true ∧
    verifyMasterPassword refProvider "b".data (arrayBufferToBase64 [1, 2])
      (hashPassword refProvider "a".data [1, 2]) = some false :=
  ⟨by decide, by decide,
    (c5_verify_correctness refProvider "a".data [1, 2] (by decide)).1,
    (c5_verify_correctness refProvider "a".data [1, 2] (by decide)).2 "b".data (by decide)⟩

/-- The stored IVs of `n` successive `encryptData` calls on the same data
and key, the `i`-th call drawing the `i`-th fresh CSPRNG output. -/
def encryptDataCalls (P : CryptoProvider) (data : List Char) (key : List Nat)
    (entropy : Nat → List Nat) (n : Nat) : List EncryptedPayload :=
  (List.range n).map fun i => encryptData P data key (entropy i)

/-- C6: every `encryptData` call draws a brand-new random 12-byte IV from
the CSPRNG — the `i`-th call stores exactly the base64 of the `i`-th fresh
12-byte draw, even though key and plaintext are identical across calls —
so when the `n` draws are distinct (the CSPRNG freshness guarantee) the
`n` stored nonces are pairwise distinct, and with them (AES-GCM being
IV-injective on fixed key and plaintext) the `n` ciphertexts are pairwise
distinct: encryption is non-deterministic across repeated calls on equal
inputs. -/
theorem c6_fresh_nonce_distinct (P : CryptoProvider) (data : List Char)
    (key : List Nat) (entropy : Nat → List Nat) (n : Nat)
    (hlen : ∀ i, i < n → (entropy i).length = 12)
    (hbytes : ∀ i, i < n → ∀ b ∈ entropy i, b < 256)
    (hfresh : ∀ i, i < n → ∀ j, j < n → i ≠ j → entropy i ≠ entropy j)
    (hciph : ∀ i, i < n → ∀ j, j < n → i ≠ j →
      P.gcmEncrypt key (entropy i) (stringToArrayBuffer data)
        ≠ P.gcmEncrypt key (entropy j) (stringToArrayBuffer data)) :
    (encryptDataCalls P data key entropy n).map (fun p => p.iv)
        = (List.range n).map (fun i => arrayBufferToBase64 (entropy i)) ∧
    (∀ p ∈ encryptDataCalls P data key entropy n,
      ∃ ivBytes, base64ToArrayBuffer p.iv = some ivBytes ∧ ivBytes.length = 12) ∧
    ((encryptDataCalls P data key entropy n).map (fun p => p.iv)).Pairwise (· ≠ ·) ∧
    ((encryptDataCalls P data key entropy n).map (fun p => p.encryptedData)).Pairwise (· ≠ ·)
    := by
  have hrange : ∀ R : Nat → Nat → Prop, (∀ i, i < n → ∀ j, j < n → i < j → R i j) →
      (List.range n).Pairwise R := by
    intro R hR
    have := List.pairwise_lt_range n
    refine this.imp_of_mem ?_
    intro a b ha hb hab
    exact hR a (List.mem_range.mp ha) b (List.mem_range.mp hb) hab
  refine ⟨?_, ?_, ?_, ?_⟩
  · simp [encryptDataCalls, encryptData]
  · intro p hp
    simp only [encryptDataCalls, List.mem_map, List.mem_range] at hp
    obtain ⟨i, hi, rfl⟩ := hp
    exact ⟨entropy i, base64_roundtrip _ (hbytes i hi), hlen i hi⟩
  · unfold encryptDataCalls
    rw [List.map_map, List.pairwise_map]
    apply hrange
    intro i hi j hj hij
    intro hEq
    have h1 : arrayBufferToBase64 (entropy i) = arrayBufferToBase64 (entropy j) := hEq
    exact hfresh i hi j hj (Nat.ne_of_lt hij)
      (arrayBufferToBase64_inj (hbytes i hi) (hbytes j hj) h1)
  · unfold encryptDataCalls
    rw [List.map_map, List.pairwise_map]
    apply hrange
    intro i hi j hj hij
    intro hEq
    have h1 : arrayBufferToBase64 (P.gcmEncrypt key (entropy i) (stringToArrayBuffer data))
        = arrayBufferToBase64 (P.gcmEncrypt key (entropy j) (stringToArrayBuffer data)) := hEq
    exact hciph i hi j hj (Nat.ne_of_lt hij)
      (arrayBufferToBase64_inj (P.gcmEncrypt_lt _ _ _) (P.gcmEncrypt_lt _ _ _) h1)

/-- A concrete 12-byte entropy stream: draw `i` is `[i, 0, …, 0]`. -/
def sampleEntropy (i : Nat) : List Nat :=
  (i % 256) :: [0, 0, 0, 0, 0, 0, 0, 0, 0, 0, 0]

/-- C6 witness: three encryptions of the same data under the same key with
three fresh draws. -/
theorem c6_fresh_nonce_distinct_witness :
    (∀ i, i < 3 → (sampleEntropy i).length = 12) ∧
    (∀ i, i < 3 → ∀ b ∈ sampleEntropy i, b < 256) ∧
    (∀ i, i < 3 → ∀ j, j < 3 → i ≠ j → sampleEntropy i ≠ sampleEntropy j) ∧
    (∀ i, i < 3 → ∀ j, j < 3 → i ≠ j →
      refProvider.gcmEncrypt sampleKey (sampleEntropy i) (stringToArrayBuffer "pw".data)
        ≠ refProvider.gcmEncrypt sampleKey (sampleEntropy j) (stringToArrayBuffer "pw".data)) ∧
    ((encryptDataCalls refProvider "pw".data sampleKey sampleEntropy 3).map
        (fun p => p.iv)).Pairwise (· ≠ ·) ∧
    ((encryptDataCalls refProvider "pw".data sampleKey sampleEntropy 3).map
        (fun p => p.encryptedData)).Pairwise (· ≠ ·) :=
  ⟨by decide, by decide, by decide, by decide,
    (c6_fresh_nonce_distinct refProvider "pw".data sampleKey sampleEntropy 3
      (by decide) (by decide) (by decide) (by decide)).2.2.1,
    (c6_fresh_nonce_distinct refProvider "pw".data sampleKey sampleEntropy 3
      (by decide) (by decide) (by decide) (by decide)).2.2.2⟩

/-- A well-formed encrypted row (the sample record under the reference
provider). -/
def goodRow : EncryptedSecretRow :=
  { id := "good".data,
    encryptedData := (encryptSecret refProvider sampleSecret sampleKey sampleIV).encryptedData,
    iv := (encryptSecret refProvider sampleSecret sampleKey sampleIV).iv }

/-- A corrupted encrypted row: its ciphertext fails authenticated
decryption. -/
def badRow : EncryptedSecretRow :=
  { id := "bad".data,
    encryptedData := arrayBufferToBase64 [9, 9, 9],
    iv := arrayBufferToBase64 sampleIV }

/-- C7 counterexample: in `decryptSecretsBatch` (the `Promise.all` batch of
`src/lib/crypto/encryption.ts`), one corrupted record rejects the whole
batch — the good record decrypts fine on its own, yet the batch yields no
records at all instead of the successfully decrypted ones. -/
theorem c7_batch_aborts_counterexample :
    decryptSecret refProvider goodRow.encryptedData goodRow.iv sampleKey
        = some sampleSecret ∧
    decryptSecret refProvider badRow.encryptedData badRow.iv sampleKey = none ∧
    decryptSecretsBatch refProvider [goodRow, badRow] sampleKey = none := by
  refine ⟨?_, by decide, ?_⟩
  · exact encryptSecret_roundtrip refProvider sampleSecret sampleKey sampleIV (by decide)
  · have hgood := encryptSecret_roundtrip refProvider sampleSecret sampleKey sampleIV
      (by decide)
    have hbad : decryptSecret refProvider badRow.encryptedData badRow.iv sampleKey = none := by
      decide
    simp [decryptSecretsBatch, List.mapM.loop, goodRow, hgood, hbad]

/-- C7 as amended: the skip-and-continue policy lives in the caller
`refreshSecrets` (`src/contexts/VaultContext.tsx`), which decrypts each
record under a per-record `try/catch` and filters out the failures: one
record failing with `DecryptionError` removes only that record, and every
other record of the batch still decrypts. -/
theorem c7_refresh_skips_corrupted (P : CryptoProvider) (key : List Nat)
    (rows1 rows2 : List EncryptedSecretRow) (bad : EncryptedSecretRow)
    (hbad : decryptSecret P bad.encryptedData bad.iv key = none) :
    refreshSecretsDecrypt P (rows1 ++ bad :: rows2) key
      = refreshSecretsDecrypt P rows1 key ++ refreshSecretsDecrypt P rows2 key := by
  unfold refreshSecretsDecrypt
  simp [List.map_append, List.filterMap_append, hbad]

/-- C7 witness: the same good/bad pair through `refreshSecrets` — the bad
record is skipped, the good one survives. -/
theorem c7_refresh_skips_corrupted_witness :
    decryptSecret refProvider badRow.encryptedData badRow.iv sampleKey = none ∧
    refreshSecretsDecrypt refProvider [goodRow, badRow] sampleKey
      = refreshSecretsDecrypt refProvider [goodRow] sampleKey
          ++ refreshSecretsDecrypt refProvider [] sampleKey :=
  ⟨by decide,
    c7_refresh_skips_corrupted refProvider sampleKey [goodRow] [] badRow (by decide)⟩

/-- The aggregate score exactly as the specification words it: start at
100, subtract `40 * (weakCount/total)`, `30 * (reusedCount/total)` and
`15 * (staleCount/total)`, add a flat +5 bonus exactly when at least 80%
of records are strong/very-strong, round, clamp to `[0, 100]`. -/
def specOverallScore (total weak reused stale strong : Nat) : Int :=
  max 0 (min 100 (round ((100 : ℚ) - 40 * ((weak : ℚ) / (total : ℚ))
    - 30 * ((reused : ℚ) / (total : ℚ)) - 15 * ((stale : ℚ) / (total : ℚ))
    + (if (4 : ℚ) / 5 ≤ (strong : ℚ) / (total : ℚ) then 5 else 0))))

/-- C8: for every non-empty record collection, the overall score computed
by the analyzer equals the specification formula applied to the analyzer's
own counts. -/
theorem c8_overall_score_formula (now : Int) (secrets : List SecretData)
    (h : secrets ≠ []) :
    (analyzeSecretsScore now secrets).overall
      = specOverallScore secrets.length (weakCount secrets) (reusedCount secrets)
          (oldCount now secrets) (strongCount secrets) := by
  have hlen : secrets.length ≠ 0 := by
    simpa [List.length_eq_zero] using h
  have ht : (0 : ℚ) < (secrets.length : ℚ) := by
    exact_mod_cast Nat.pos_of_ne_zero hlen
  unfold analyzeSecretsScore calculateOverallScore specOverallScore
  rw [if_neg hlen]
  have hcond : ((secrets.length : ℚ) * 0.8 ≤ (strongCount secrets : ℚ))
      ↔ ((4 : ℚ) / 5 ≤ (strongCount secrets : ℚ) / (secrets.length : ℚ)) := by
    rw [le_div_iff₀ ht]
    constructor
    · intro h1
      nlinarith
    · intro h1
      nlinarith
  dsimp only
  split_ifs with h1 h2 h2
  · congr 2
    ring
  · exact absurd (hcond.mp h1) h2
  · exact absurd (hcond.mpr h2) h1
  · congr 2
    ring

def sampleSecrets : List SecretData :=
  [{ id := "1".data, name := "a".data, password := "aaaaaaaa".data, updatedAtMs := 0 },
   { id := "2".data, name := "b".data, password := "Tr0ub4dor&3XyZ!".data, updatedAtMs := 0 }]

/-- C8 witness: the analyzer's score agrees with the specification formula
on a concrete two-record collection. -/
theorem c8_overall_score_formula_witness :
    sampleSecrets ≠ [] ∧
    (analyzeSecretsScore 0 sampleSecrets).overall
      = specOverallScore sampleSecrets.length (weakCount sampleSecrets)
          (reusedCount sampleSecrets) (oldCount 0 sampleSecrets)
          (strongCount sampleSecrets) :=
  ⟨by decide, c8_overall_score_formula 0 sampleSecrets (by decide)⟩

/-- C9: the scorer classifies `"aaaaaaaa"` (8 lowercase characters, score
10 + 10 + ⌊20/8⌋ = 22) as weak and `"Tr0ub4dor&3XyZ!"` (15 characters, all
four classes, 14 distinct characters, score 20 + 40 + ⌊14·20/15⌋ = 78) as
very-strong, per the length-threshold / character-class /
unique-ratio-floor scoring rule. -/
theorem c9_strength_boundaries :
    passwordScore "aaaaaaaa".data = 22 ∧
    calculatePasswordStrength "aaaaaaaa".data = .weak ∧
    passwordScore "Tr0ub4dor&3XyZ!".data = 78 ∧
    calculatePasswordStrength "Tr0ub4dor&3XyZ!".data = .veryStrong := by
  decide

/-- C10: every record whose password is classified `medium` is counted in
`weakPasswords` and gets a weak-password issue of severity `high`;
`strongPasswords` counts exactly the records classified `strong` or
`very-strong`; and `weakPasswords + strongPasswords` equals the total
number of records. -/
theorem c10_weak_strong_partition (secrets : List SecretData) :
    (∀ s ∈ secrets, calculatePasswordStrength s.password = .medium →
      countsAsWeak s = true ∧ (s.id, Severity.high) ∈ weakPasswordIssues secrets) ∧
    strongCount secrets
      = secrets.countP (fun s => decide (calculatePasswordStrength s.password = .strong
          ∨ calculatePasswordStrength s.password = .veryStrong)) ∧
    weakCount secrets + strongCount secrets = secrets.length := by
  refine ⟨?_, ?_, ?_⟩
  · intro s hs hm
    refine ⟨by simp [countsAsWeak, hm], ?_⟩
    simp only [weakPasswordIssues, List.mem_filterMap]
    exact ⟨s, hs, by rw [hm]⟩
  · unfold strongCount
    apply List.countP_congr
    intro s _
    unfold countsAsWeak
    cases hstr : calculatePasswordStrength s.password <;> simp [hstr]
  · unfold weakCount strongCount
    induction secrets with
    | nil => rfl
    | cons s t ih =>
        by_cases hw : countsAsWeak s = true <;>
          simp [List.countP_cons, hw] <;> omega

end VaultUltra
